import Mathlib

/-!
Verification of the MiniSynth sine-wave oscillator core (`src/main.rs`).

The embedding keeps all phase and parameter arithmetic exact over `ℚ`
(the Rust source uses `f32`; the spec's testable properties are stated
"over the exact-arithmetic embedding"), and models the transcendental
sample computation over `ℝ` with `Real.sin`.

The crossbeam bounded(1) channel connecting the control loop
(`update_freq`) and the audio loop (`SineDecoder::next`) is modelled as a
single-slot mailbox `Option SynthParams`; interleavings of publishes and
pulls are modelled as event traces acting on a system state.
-/

/-- `SynthParams` from `src/main.rs`: frequency (Hz), linear volume gain,
and distortion drive amount. A plain copyable value type. -/
structure SynthParams where
  frequency : ℚ
  volume : ℚ
  distortion : ℚ
deriving DecidableEq, Repr

/-- `SynthAudio` from `src/main.rs`: holds the two channel endpoints
(modelled as opaque handle ids) and the initial parameters used by a
freshly constructed decoder. -/
structure SynthAudio where
  params_sender : ℕ
  params_receiver : ℕ
  initial_params : SynthParams

/-- `SineDecoder` from `src/main.rs`. `current_progress` is the phase in
one period, `period` is the constant `2π` stored at construction,
`sample_rate` is fixed at 44100 by `SineDecoder::new`. -/
structure SineDecoder where
  params_receiver : ℕ
  current_params : SynthParams
  current_progress : ℚ
  period : ℝ
  sample_rate : ℕ

/-- Truncation toward zero, as Rust float-to-integer truncation used by
the float `%` operator. -/
def ratTrunc (x : ℚ) : ℤ :=
  if 0 ≤ x then ⌊x⌋ else ⌈x⌉

/-- Rust's `%` on floats (`Rem` for `f32`): `x - y * trunc(x / y)`,
embedded exactly on `ℚ`. This is the operation in
`self.current_progress %= 1.;`. -/
def rustRem (x y : ℚ) : ℚ :=
  x - y * (ratTrunc (x / y) : ℚ)

/-- `f32::clamp(x, lo, hi)` for `lo ≤ hi`: `min (max x lo) hi`, on `ℝ`. -/
def clampR (x lo hi : ℝ) : ℝ :=
  min (max x lo) hi

/-- The single-slot mailbox state of the `crossbeam_channel::bounded(1)`
channel: at most one pending, unconsumed `SynthParams` update. -/
abbrev Mailbox := Option SynthParams

/-- `Receiver::try_recv` on the bounded(1) channel: returns the pending
value (emptying the slot) or nothing, never blocking. -/
def try_recv (m : Mailbox) : Option SynthParams × Mailbox :=
  match m with
  | some p => (some p, none)
  | none => (none, none)

/-- `Sender::try_send` on the bounded(1) channel: stores the value when
the slot is empty (success), leaves the old pending value unchanged and
reports failure when the slot is full. Never blocks. -/
def try_send (m : Mailbox) (p : SynthParams) : Mailbox × Bool :=
  match m with
  | none => (some p, true)
  | some q => (some q, false)

/-- `SineDecoder::new`: clones the receiver handle, copies the initial
parameters, sets phase to 0, period to `2π` and sample rate to 44100. -/
noncomputable def SineDecoder.new (audio : SynthAudio) : SineDecoder :=
  { params_receiver := audio.params_receiver
    current_params := audio.initial_params
    current_progress := 0
    period := 2 * Real.pi
    sample_rate := 44100 }

/-- The state-updating part of `SineDecoder::next`: drain at most one
pending update from the channel into `current_params`, then advance the
phase by `frequency / sample_rate` and reduce it with `%= 1.`. Returns
the updated decoder and the updated mailbox. -/
def SineDecoder.step (self : SineDecoder) (chan : Mailbox) : SineDecoder × Mailbox :=
  let fetched := (try_recv chan).1.getD self.current_params
  let progress := rustRem (self.current_progress + fetched.frequency / (self.sample_rate : ℚ)) 1
  ({ self with current_params := fetched, current_progress := progress },
   (try_recv chan).2)

/-- `SineDecoder::next` (the `Iterator` implementation): performs the
state update of `SineDecoder.step` and returns
`Some(clamp(sin(period * progress) * ((distortion + 1) * 2), -1, 1) * volume)`
computed from the updated state, exactly as the source. -/
noncomputable def SineDecoder.next (self : SineDecoder) (chan : Mailbox) :
    (SineDecoder × Mailbox) × Option ℝ :=
  let (st, m) := self.step chan
  ((st, m),
   some (clampR (Real.sin (st.period * (st.current_progress : ℝ)) *
       (((st.current_params.distortion : ℝ) + 1) * 2)) (-1) 1 *
     (st.current_params.volume : ℝ)))

namespace SourceImpl

/-- `Source::current_frame_len` for `SineDecoder`: returns `None`; takes
`&self`, so it returns the decoder state unchanged. -/
def current_frame_len (self : SineDecoder) : Option ℕ × SineDecoder :=
  (none, self)

/-- `Source::channels` for `SineDecoder`: returns 1 (mono); takes
`&self`, so it returns the decoder state unchanged. -/
def channels (self : SineDecoder) : ℕ × SineDecoder :=
  (1, self)

/-- `Source::sample_rate` for `SineDecoder`: returns the stored sample
rate; takes `&self`, so it returns the decoder state unchanged. -/
def sample_rate (self : SineDecoder) : ℕ × SineDecoder :=
  (self.sample_rate, self)

/-- `Source::total_duration` for `SineDecoder`: returns `None`
(unbounded stream); takes `&self`, so it returns the decoder state
unchanged. -/
def total_duration (self : SineDecoder) : Option ℚ × SineDecoder :=
  (none, self)

end SourceImpl

/-- Combined state of the concurrent system: the channel's single slot
and the decoder owned by the audio loop. -/
structure SynthSys where
  mailbox : Mailbox
  dec : SineDecoder

/-- An atomic event of the concurrent system: either the control loop
publishes a parameter value (`try_send`, result ignored), or the audio
loop pulls one sample (`SineDecoder::next`). Crossbeam channel
operations are atomic, so every interleaving of the two threads is a
sequence of these events. -/
inductive SynthEvent
  | publish (p : SynthParams)
  | pull
deriving DecidableEq

/-- One event acting on the system state. A publish ignores the
`try_send` result, as `update_freq` does (`let _ignored_result = ...`). -/
def stepEvent (s : SynthSys) : SynthEvent → SynthSys
  | SynthEvent.publish p => { s with mailbox := (try_send s.mailbox p).1 }
  | SynthEvent.pull =>
      let (d, m) := s.dec.step s.mailbox
      { mailbox := m, dec := d }

/-- Run a trace of events from a system state. -/
def run (s : SynthSys) (es : List SynthEvent) : SynthSys :=
  es.foldl stepEvent s

/-- The parameter values sent through the channel in a trace. -/
def sentParams (es : List SynthEvent) : List SynthParams :=
  es.filterMap fun e =>
    match e with
    | SynthEvent.publish p => some p
    | SynthEvent.pull => none

/-- The initial system state for a given `SynthAudio`: empty channel,
fresh decoder. -/
noncomputable def initSys (audio : SynthAudio) : SynthSys :=
  { mailbox := none, dec := SineDecoder.new audio }

/-- The cursor-to-parameter mapping computed by `update_freq` in
`src/main.rs` from cursor position `(x, y)` and window size `(w, h)`. -/
def cursorParams (x y w h : ℚ) : SynthParams :=
  { frequency := (1 - y / h) * 880
    volume := 0.5 + y / h
    distortion := 1 - |x / w - 0.5| * 2 }

/-- The cursor-to-parameter mapping as the spec states it:
`frequency = (1 − y/h) × 880.0`, `volume = 0.5 + y/h`,
`distortion = 1 − |x/w − 0.5| × 2`. -/
def cursorParamsSpec (x y w h : ℚ) : SynthParams :=
  { frequency := (1 - y / h) * 880
    volume := 0.5 + y / h
    distortion := 1 - |x / w - 0.5| * 2 }

/-- The `update_freq` system of `src/main.rs`, on a frame where the
cursor is at `(x, y)` in a window of size `(w, h)`: computes the new
parameters and publishes them with `try_send`, ignoring the result. -/
def update_freq (x y w h : ℚ) (s : SynthSys) : SynthSys :=
  { s with mailbox := (try_send s.mailbox (cursorParams x y w h)).1 }

/-- The `SynthAudio` built in `setup` of `src/main.rs`: initial
parameters frequency 440, volume 0.5, distortion 0. -/
def setupAudio : SynthAudio :=
  { params_sender := 0
    params_receiver := 0
    initial_params := { frequency := 440, volume := 0.5, distortion := 0 } }

/-- The example-scenario audio of spec §8: initial parameters
frequency 440, volume 1, distortion 0. -/
def demoAudio : SynthAudio :=
  { params_sender := 0
    params_receiver := 0
    initial_params := { frequency := 440, volume := 1, distortion := 0 } }

/-- A parameter value can originate from a system state and a trace: it
is the value the decoder already holds, the value pending in the
mailbox, or one of the values sent during the trace. -/
def paramFromSys (s : SynthSys) (es : List SynthEvent) (p : SynthParams) : Prop :=
  p = s.dec.current_params ∨ s.mailbox = some p ∨ p ∈ sentParams es

/-- Invariant carrying the phase bounds: the phase is in `[0, 1)` and
every frequency the decoder can still observe is nonnegative. -/
def NonnegInv (s : SynthSys) : Prop :=
  0 ≤ s.dec.current_progress ∧ s.dec.current_progress < 1 ∧
  0 ≤ s.dec.current_params.frequency ∧
  ∀ q, s.mailbox = some q → 0 ≤ q.frequency

/-- The phase sequence obtained by repeatedly advancing by `d` and
reducing with the Rust float remainder, starting from `q`. -/
def phaseSeq (d q : ℚ) : ℕ → ℚ
  | 0 => q
  | n + 1 => rustRem (phaseSeq d q n + d) 1


/-! ## Helper lemmas -/

lemma clampR_le_hi (x lo hi : ℝ) : clampR x lo hi ≤ hi :=
  min_le_right _ _

lemma lo_le_clampR (x lo hi : ℝ) (h : lo ≤ hi) : lo ≤ clampR x lo hi :=
  le_min (le_max_right _ _) h

lemma abs_clampR_le_one (x : ℝ) : |clampR x (-1) 1| ≤ 1 :=
  abs_le.mpr ⟨lo_le_clampR _ _ _ (by norm_num), clampR_le_hi _ _ _⟩

/-! ## Claim theorems -/

/-- Claim C1: every call to `SineDecoder::next` fetches at most one
pending update, advances the stored phase to
`p1 = (p0 + f / sample_rate) % 1.0` (Rust float remainder, embedded as
`rustRem`), and returns
`Some(clamp(sin(2π·p1) × ((d + 1) × 2), -1, 1) × v)` where `(f, v, d)`
are the parameters in effect after the fetch; it never returns `None`. -/
theorem next_spec (st : SineDecoder) (m : Mailbox) (hper : st.period = 2 * Real.pi) :
    (st.next m).1.1.current_params = (try_recv m).1.getD st.current_params ∧
    (st.next m).1.1.current_progress =
      rustRem (st.current_progress +
        ((try_recv m).1.getD st.current_params).frequency / (st.sample_rate : ℚ)) 1 ∧
    (st.next m).2 =
      some (clampR (Real.sin (2 * Real.pi *
            ((rustRem (st.current_progress +
              ((try_recv m).1.getD st.current_params).frequency / (st.sample_rate : ℚ)) 1 : ℚ) : ℝ)) *
          ((((try_recv m).1.getD st.current_params).distortion : ℝ) + 1) * 2) (-1) 1 *
        (((try_recv m).1.getD st.current_params).volume : ℝ)) ∧
    (st.next m).2 ≠ none := by
  cases m <;>
    simp [SineDecoder.next, SineDecoder.step, try_recv, hper, mul_assoc]

/-- Witness for C1 at the fresh demo decoder with an empty channel. -/
theorem next_spec_witness :
    ((SineDecoder.new demoAudio).next none).1.1.current_params
      = (try_recv none).1.getD (SineDecoder.new demoAudio).current_params ∧
    ((SineDecoder.new demoAudio).next none).1.1.current_progress =
      rustRem ((SineDecoder.new demoAudio).current_progress +
        ((try_recv none).1.getD (SineDecoder.new demoAudio).current_params).frequency /
          ((SineDecoder.new demoAudio).sample_rate : ℚ)) 1 ∧
    ((SineDecoder.new demoAudio).next none).2 =
      some (clampR (Real.sin (2 * Real.pi *
            ((rustRem ((SineDecoder.new demoAudio).current_progress +
              ((try_recv none).1.getD (SineDecoder.new demoAudio).current_params).frequency /
                ((SineDecoder.new demoAudio).sample_rate : ℚ)) 1 : ℚ) : ℝ)) *
          ((((try_recv none).1.getD (SineDecoder.new demoAudio).current_params).distortion : ℝ) + 1) * 2)
          (-1) 1 *
        (((try_recv none).1.getD (SineDecoder.new demoAudio).current_params).volume : ℝ)) ∧
    ((SineDecoder.new demoAudio).next none).2 ≠ none :=
  next_spec (SineDecoder.new demoAudio) none rfl

/-- Claim C2: every sample emitted by `SineDecoder::next` is a value of
`[-1, 1]` multiplied by the volume in effect, hence lies in
`[-|volume|, |volume|]` — for every state, mailbox content, and
parameter values including zero, negative and large magnitudes. -/
theorem sample_in_volume_range (st : SineDecoder) (m : Mailbox) :
    ∃ r : ℝ, (st.next m).2 = some r ∧
      |r| ≤ |(((try_recv m).1.getD st.current_params).volume : ℝ)| ∧
      ∃ c : ℝ, c ∈ Set.Icc (-1 : ℝ) 1 ∧
        r = c * (((try_recv m).1.getD st.current_params).volume : ℝ) := by
  cases m <;>
  · simp only [SineDecoder.next, SineDecoder.step, try_recv, Option.getD]
    refine ⟨_, rfl, ?_, _, ⟨lo_le_clampR _ _ _ (by norm_num), clampR_le_hi _ _ _⟩, rfl⟩
    rw [abs_mul]
    exact mul_le_of_le_one_left (abs_nonneg _) (abs_clampR_le_one _)

/-- Claim C6: a publish never blocks and its failure is invisible to the
caller: `try_send` on a full slot keeps the old pending value and only
reports failure through a return value, `try_send` on an empty slot
stores the published value, and the control-loop publish step ignores
the result entirely. -/
theorem try_send_drop_if_full :
    (∀ p : SynthParams, try_send none p = (some p, true)) ∧
    (∀ q p : SynthParams, try_send (some q) p = (some q, false)) ∧
    (∀ (s : SynthSys) (p : SynthParams),
      stepEvent s (SynthEvent.publish p) = { s with mailbox := (try_send s.mailbox p).1 }) :=
  ⟨fun _ => rfl, fun _ _ => rfl, fun _ _ => rfl⟩

/-- Claim C9: for every cursor position `(x, y)` in a window of size
`(w, h)`, the parameters built and published by `update_freq` are
exactly `frequency = (1 − y/h) × 880`, `volume = 0.5 + y/h`,
`distortion = 1 − |x/w − 0.5| × 2`, as the spec states. -/
theorem cursor_mapping :
    (∀ x y w h : ℚ, cursorParams x y w h = cursorParamsSpec x y w h) ∧
    (∀ (x y w h : ℚ) (s : SynthSys),
      update_freq x y w h s =
        { s with mailbox := (try_send s.mailbox (cursorParamsSpec x y w h)).1 }) :=
  ⟨fun _ _ _ _ => rfl, fun _ _ _ _ _ => rfl⟩

/-- Claim C10: `SineDecoder::next` leaves the `period`, `sample_rate`
and `params_receiver` fields unchanged (it only mutates
`current_params` and `current_progress`), and the four `Source`
accessors leave the whole decoder state unchanged. -/
theorem next_frame_effect (st : SineDecoder) (m : Mailbox) :
    ((st.next m).1.1.period = st.period ∧
     (st.next m).1.1.sample_rate = st.sample_rate ∧
     (st.next m).1.1.params_receiver = st.params_receiver) ∧
    (SourceImpl.current_frame_len st).2 = st ∧
    (SourceImpl.channels st).2 = st ∧
    (SourceImpl.sample_rate st).2 = st ∧
    (SourceImpl.total_duration st).2 = st := by
  refine ⟨?_, rfl, rfl, rfl, rfl⟩
  cases m <;> simp [SineDecoder.next, SineDecoder.step, try_recv]

/-! ## Trace lemmas -/

lemma run_nil (s : SynthSys) : run s [] = s := rfl

lemma run_cons (s : SynthSys) (e : SynthEvent) (es : List SynthEvent) :
    run s (e :: es) = run (stepEvent s e) es := rfl

lemma run_append (s : SynthSys) (l l' : List SynthEvent) :
    run s (l ++ l') = run (run s l) l' :=
  List.foldl_append _ _ _ _

lemma sentParams_publish (p : SynthParams) (es : List SynthEvent) :
    sentParams (SynthEvent.publish p :: es) = p :: sentParams es := rfl

lemma sentParams_pull (es : List SynthEvent) :
    sentParams (SynthEvent.pull :: es) = sentParams es := rfl

lemma paramFromSys_step (s : SynthSys) (e : SynthEvent) (es : List SynthEvent)
    (p : SynthParams) (h : paramFromSys (stepEvent s e) es p) :
    paramFromSys s (e :: es) p := by
  cases e with
  | publish p0 =>
      rcases h with h | h | h
      · exact Or.inl h
      · cases hm : s.mailbox with
        | none =>
            simp only [stepEvent, hm, try_send] at h
            refine Or.inr (Or.inr ?_)
            rw [sentParams_publish]
            injection h with h
            rw [← h]
            exact List.mem_cons_self _ _
        | some q =>
            simp only [stepEvent, hm, try_send] at h
            exact Or.inr (Or.inl (by rw [hm, h]))
      · refine Or.inr (Or.inr ?_)
        rw [sentParams_publish]
        exact List.mem_cons_of_mem _ h
  | pull =>
      rcases h with h | h | h
      · cases hm : s.mailbox with
        | none =>
            simp only [stepEvent, hm, SineDecoder.step, try_recv, Option.getD] at h
            exact Or.inl h
        | some q =>
            simp only [stepEvent, hm, SineDecoder.step, try_recv, Option.getD] at h
            exact Or.inr (Or.inl (by rw [hm, h]))
      · cases hm : s.mailbox <;>
          simp only [stepEvent, hm, SineDecoder.step, try_recv] at h <;>
          exact Option.noConfusion h
      · exact Or.inr (Or.inr h)

lemma run_params_from (es : List SynthEvent) :
    ∀ s : SynthSys,
      paramFromSys s es (run s es).dec.current_params ∧
      ∀ q, (run s es).mailbox = some q → paramFromSys s es q := by
  induction es with
  | nil =>
      intro s
      exact ⟨Or.inl rfl, fun q hq => Or.inr (Or.inl hq)⟩
  | cons e es ih =>
      intro s
      rw [run_cons]
      obtain ⟨h1, h2⟩ := ih (stepEvent s e)
      exact ⟨paramFromSys_step _ _ _ _ h1, fun q hq => paramFromSys_step _ _ _ _ (h2 q hq)⟩

/-- Claim C3: for every interleaving of publishes and pulls, the
parameters used by the decoder are always one complete value — either
the initial parameters or exactly one value that was sent through the
channel, never a mix of fields from different updates. -/
theorem params_never_torn (audio : SynthAudio) (es : List SynthEvent) :
    (run (initSys audio) es).dec.current_params = audio.initial_params ∨
    (run (initSys audio) es).dec.current_params ∈ sentParams es := by
  rcases (run_params_from es (initSys audio)).1 with h | h | h
  · exact Or.inl h
  · simp only [initSys] at h
    exact absurd h (by simp)
  · exact Or.inr h

lemma pullsOnly_keep (es : List SynthEvent) (hes : ∀ e ∈ es, e = SynthEvent.pull) :
    ∀ s : SynthSys, s.mailbox = none →
      (run s es).dec.current_params = s.dec.current_params ∧ (run s es).mailbox = none := by
  induction es with
  | nil => exact fun s hs => ⟨rfl, hs⟩
  | cons e es ih =>
      intro s hs
      have he : e = SynthEvent.pull := hes e (List.mem_cons_self _ _)
      subst he
      rw [run_cons]
      have hstep : stepEvent s SynthEvent.pull =
          { mailbox := none,
            dec := { s.dec with current_progress := rustRem (s.dec.current_progress + s.dec.current_params.frequency / (s.dec.sample_rate : ℚ)) 1 } } := by
        simp only [stepEvent, hs, SineDecoder.step, try_recv, Option.getD]
      have hparams : (stepEvent s SynthEvent.pull).dec.current_params = s.dec.current_params := by
        rw [hstep]
      obtain ⟨h1, h2⟩ := ih (fun e he => hes e (List.mem_cons_of_mem _ he))
        (stepEvent s SynthEvent.pull) (by rw [hstep])
      exact ⟨h1.trans hparams, h2⟩

/-- Claim C7 counterexample: a publish whose value is dropped because
the mailbox was full never becomes visible. Publishing 100 Hz, then
200 Hz (dropped), then pulling a sample leaves the decoder on the
100 Hz parameters, not the 200 Hz ones, even though the publish of the
200 Hz value completed and a pull followed it. -/
theorem dropped_publish_not_visible :
    (run (initSys setupAudio)
        [SynthEvent.publish ⟨100, 1, 0⟩, SynthEvent.publish ⟨200, 1, 0⟩,
         SynthEvent.pull]).dec.current_params ≠ ⟨200, 1, 0⟩ := by
  decide

/-- Claim C7 (amended): after a publish of `p` that is actually
delivered (the mailbox slot was empty when it was sent) and at least
one subsequent call to `SineDecoder::next`, every later sample is
computed using `p` for as long as no later update is consumed (here:
over any suffix consisting only of pulls). -/
theorem delivered_publish_visible (s : SynthSys) (p : SynthParams)
    (h : s.mailbox = none) (es : List SynthEvent)
    (hes : ∀ e ∈ es, e = SynthEvent.pull) :
    (run (run s [SynthEvent.publish p, SynthEvent.pull]) es).dec.current_params = p := by
  have hpub : run s [SynthEvent.publish p, SynthEvent.pull] =
      stepEvent (stepEvent s (SynthEvent.publish p)) SynthEvent.pull := rfl
  have hm1 : (stepEvent s (SynthEvent.publish p)).mailbox = some p := by
    simp only [stepEvent, h, try_send]
  have hd1 : (stepEvent s (SynthEvent.publish p)).dec = s.dec := rfl
  have hafter : (run s [SynthEvent.publish p, SynthEvent.pull]).dec.current_params = p ∧
      (run s [SynthEvent.publish p, SynthEvent.pull]).mailbox = none := by
    rw [hpub]
    constructor <;>
      simp only [stepEvent, h, try_send, SineDecoder.step, try_recv, Option.getD]
  obtain ⟨h1, h2⟩ := pullsOnly_keep es hes _ hafter.2
  rw [h1, hafter.1]

/-- Witness for the amended C7 at a concrete delivered publish. -/
theorem delivered_publish_visible_witness :
    (run (run (initSys setupAudio)
        [SynthEvent.publish ⟨220, 1, 0⟩, SynthEvent.pull])
      [SynthEvent.pull]).dec.current_params = ⟨220, 1, 0⟩ :=
  delivered_publish_visible (initSys setupAudio) ⟨220, 1, 0⟩ rfl
    [SynthEvent.pull] (by decide)

/-! ## Arithmetic of the Rust float remainder -/

lemma ratTrunc_neg (x : ℚ) : ratTrunc (-x) = -ratTrunc x := by
  rcases lt_trichotomy x 0 with hx | hx | hx
  · rw [ratTrunc, ratTrunc, if_pos (by linarith), if_neg (not_le.mpr hx), Int.floor_neg]
  · subst hx; simp [ratTrunc]
  · rw [ratTrunc, ratTrunc, if_neg (by simpa using hx), if_pos hx.le, Int.ceil_neg]

lemma rustRem_neg_one (x : ℚ) : rustRem (-x) 1 = -rustRem x 1 := by
  rw [rustRem, rustRem, div_one, div_one, ratTrunc_neg]
  push_cast
  ring

lemma rustRem_one_eq_fract (x : ℚ) (hx : 0 ≤ x) : rustRem x 1 = Int.fract x := by
  rw [rustRem, ratTrunc, div_one, if_pos hx, ← Int.self_sub_floor]
  ring

lemma rustRem_one_nonneg (x : ℚ) (hx : 0 ≤ x) : 0 ≤ rustRem x 1 := by
  rw [rustRem_one_eq_fract x hx]
  exact Int.fract_nonneg x

lemma rustRem_one_lt_one (x : ℚ) (hx : 0 ≤ x) : rustRem x 1 < 1 := by
  rw [rustRem_one_eq_fract x hx]
  exact Int.fract_lt_one x

lemma fract_fract_add (a b : ℚ) : Int.fract (Int.fract a + b) = Int.fract (a + b) := by
  refine Int.fract_eq_fract.mpr ⟨-⌊a⌋, ?_⟩
  rw [← Int.self_sub_floor]
  push_cast
  ring

/-! ## The phase invariant (C4) -/

lemma NonnegInv_step (s : SynthSys) (e : SynthEvent)
    (he : ∀ p, e = SynthEvent.publish p → 0 ≤ p.frequency)
    (h : NonnegInv s) : NonnegInv (stepEvent s e) := by
  obtain ⟨h1, h2, h3, h4⟩ := h
  cases e with
  | publish p0 =>
      refine ⟨h1, h2, h3, fun q hq => ?_⟩
      cases hm : s.mailbox with
      | none =>
          simp only [stepEvent, hm, try_send] at hq
          injection hq with hq
          rw [← hq]
          exact he p0 rfl
      | some r =>
          simp only [stepEvent, hm, try_send] at hq
          injection hq with hq
          rw [← hq]
          exact h4 r hm
  | pull =>
      cases hm : s.mailbox with
      | none =>
          have hfreq : 0 ≤ s.dec.current_params.frequency / (s.dec.sample_rate : ℚ) :=
            div_nonneg h3 (by positivity)
          refine ⟨?_, ?_, ?_, ?_⟩
          · simp only [stepEvent, hm, SineDecoder.step, try_recv, Option.getD]
            exact rustRem_one_nonneg _ (by linarith)
          · simp only [stepEvent, hm, SineDecoder.step, try_recv, Option.getD]
            exact rustRem_one_lt_one _ (by linarith)
          · simp only [stepEvent, hm, SineDecoder.step, try_recv, Option.getD]
            exact h3
          · intro q hq
            simp only [stepEvent, hm, SineDecoder.step, try_recv] at hq
            exact Option.noConfusion hq
      | some r =>
          have hr : 0 ≤ r.frequency := h4 r hm
          have hfreq : 0 ≤ r.frequency / (s.dec.sample_rate : ℚ) :=
            div_nonneg hr (by positivity)
          refine ⟨?_, ?_, ?_, ?_⟩
          · simp only [stepEvent, hm, SineDecoder.step, try_recv, Option.getD]
            exact rustRem_one_nonneg _ (by linarith)
          · simp only [stepEvent, hm, SineDecoder.step, try_recv, Option.getD]
            exact rustRem_one_lt_one _ (by linarith)
          · simp only [stepEvent, hm, SineDecoder.step, try_recv, Option.getD]
            exact hr
          · intro q hq
            simp only [stepEvent, hm, SineDecoder.step, try_recv] at hq
            exact Option.noConfusion hq

lemma NonnegInv_run (es : List SynthEvent)
    (hes : ∀ p ∈ sentParams es, 0 ≤ p.frequency) :
    ∀ s : SynthSys, NonnegInv s → NonnegInv (run s es) := by
  induction es with
  | nil => exact fun s h => h
  | cons e es ih =>
      intro s h
      rw [run_cons]
      have he : ∀ p, e = SynthEvent.publish p → 0 ≤ p.frequency := by
        intro p hp
        subst hp
        exact hes p (by rw [sentParams_publish]; exact List.mem_cons_self _ _)
      have hes' : ∀ p ∈ sentParams es, 0 ≤ p.frequency := by
        intro p hp
        cases e with
        | publish p0 => exact hes p (by rw [sentParams_publish]; exact List.mem_cons_of_mem _ hp)
        | pull => exact hes p (by rw [sentParams_pull]; exact hp)
      exact ih hes' _ (NonnegInv_step s e he h)

/-- Claim C4 counterexample: the phase does not stay in `[0, 1)` for
every published parameter value. Publishing frequency `-440` and
pulling once from a fresh decoder leaves
`current_progress = -440/44100 < 0`, because Rust's float `%` keeps the
sign of its dividend. -/
theorem phase_negative_example :
    (run (initSys demoAudio)
        [SynthEvent.publish ⟨-440, 1, 0⟩, SynthEvent.pull]).dec.current_progress < 0 := by
  have h1 : (run (initSys demoAudio)
      [SynthEvent.publish ⟨-440, 1, 0⟩, SynthEvent.pull]).dec.current_progress =
      rustRem ((0 : ℚ) + (-440 : ℚ) / ((44100 : ℕ) : ℚ)) 1 := rfl
  have h2 : ((44100 : ℕ) : ℚ) = 44100 := by norm_num
  rw [h1, h2, rustRem, ratTrunc, div_one, if_neg (by norm_num)]
  have h3 : ⌈((0 : ℚ) + -440 / 44100)⌉ = 0 := by
    rw [Int.ceil_eq_zero_iff]
    constructor <;> norm_num
  rw [h3]
  norm_num

/-- Claim C4 (amended): starting from 0 at construction, the stored
phase stays in `[0, 1)` after every event provided the initial
frequency and every published frequency are nonnegative; a negative
frequency can drive it negative (it always stays in `(-1, 1)`). -/
theorem phase_in_unit_of_nonneg (audio : SynthAudio) (es : List SynthEvent)
    (h0 : 0 ≤ audio.initial_params.frequency)
    (hes : ∀ p ∈ sentParams es, 0 ≤ p.frequency) :
    0 ≤ (run (initSys audio) es).dec.current_progress ∧
    (run (initSys audio) es).dec.current_progress < 1 := by
  have hinit : NonnegInv (initSys audio) := by
    refine ⟨le_refl 0, one_pos, h0, fun q hq => ?_⟩
    simp only [initSys] at hq
    exact Option.noConfusion hq
  obtain ⟨h1, h2, _, _⟩ := NonnegInv_run es hes _ hinit
  exact ⟨h1, h2⟩

/-- Witness for the amended C4: a publish of 880 Hz and two pulls from
the setup system keep the phase inside `[0, 1)`. -/
theorem phase_in_unit_of_nonneg_witness :
    0 ≤ (run (initSys setupAudio)
        [SynthEvent.pull, SynthEvent.publish ⟨880, 1, 0⟩, SynthEvent.pull]).dec.current_progress ∧
    (run (initSys setupAudio)
        [SynthEvent.pull, SynthEvent.publish ⟨880, 1, 0⟩, SynthEvent.pull]).dec.current_progress < 1 :=
  phase_in_unit_of_nonneg setupAudio
    [SynthEvent.pull, SynthEvent.publish ⟨880, 1, 0⟩, SynthEvent.pull]
    (by decide) (by decide)

/-! ## Phase accumulation over N samples (C5) -/

lemma pulls_progress (N : ℕ) :
    ∀ s : SynthSys, s.mailbox = none →
      (run s (List.replicate N SynthEvent.pull)).mailbox = none ∧
      (run s (List.replicate N SynthEvent.pull)).dec.current_params = s.dec.current_params ∧
      (run s (List.replicate N SynthEvent.pull)).dec.sample_rate = s.dec.sample_rate ∧
      (run s (List.replicate N SynthEvent.pull)).dec.current_progress =
        phaseSeq (s.dec.current_params.frequency / (s.dec.sample_rate : ℚ))
          s.dec.current_progress N := by
  induction N with
  | zero => exact fun s hs => ⟨hs, rfl, rfl, rfl⟩
  | succ N ih =>
      intro s hs
      rw [List.replicate_succ', run_append]
      obtain ⟨h1, h2, h3, h4⟩ := ih s hs
      have hstep : run (run s (List.replicate N SynthEvent.pull)) [SynthEvent.pull] =
          { mailbox := none,
            dec := { (run s (List.replicate N SynthEvent.pull)).dec with current_progress := rustRem ((run s (List.replicate N SynthEvent.pull)).dec.current_progress + (run s (List.replicate N SynthEvent.pull)).dec.current_params.frequency / ((run s (List.replicate N SynthEvent.pull)).dec.sample_rate : ℚ)) 1 } } := by
        show stepEvent _ SynthEvent.pull = _
        simp only [stepEvent, h1, SineDecoder.step, try_recv, Option.getD]
      rw [hstep]
      refine ⟨rfl, h2, h3, ?_⟩
      show rustRem _ 1 = phaseSeq _ _ (N + 1)
      rw [phaseSeq, h2, h3, h4]

lemma phaseSeq_nonneg_eq_fract (d : ℚ) (hd : 0 ≤ d) (N : ℕ) :
    phaseSeq d 0 N = Int.fract ((N : ℚ) * d) := by
  induction N with
  | zero => simp [phaseSeq]
  | succ N ih =>
      rw [phaseSeq, ih]
      have harg : 0 ≤ Int.fract ((N : ℚ) * d) + d :=
        add_nonneg (Int.fract_nonneg _) hd
      rw [rustRem_one_eq_fract _ harg, fract_fract_add]
      congr 1
      push_cast
      ring

lemma phaseSeq_neg (d : ℚ) (N : ℕ) : phaseSeq (-d) 0 N = -phaseSeq d 0 N := by
  induction N with
  | zero => simp [phaseSeq]
  | succ N ih =>
      rw [phaseSeq, phaseSeq, ih, ← rustRem_neg_one]
      congr 1
      ring

lemma phaseSeq_eq_rustRem (d : ℚ) (N : ℕ) : phaseSeq d 0 N = rustRem ((N : ℚ) * d) 1 := by
  rcases le_or_lt 0 d with hd | hd
  · rw [phaseSeq_nonneg_eq_fract d hd N,
      rustRem_one_eq_fract _ (mul_nonneg (Nat.cast_nonneg _) hd)]
  · have hd' : 0 ≤ -d := by linarith
    have hneg : phaseSeq d 0 N = -phaseSeq (-d) 0 N := by
      rw [phaseSeq_neg, neg_neg]
    rw [hneg, phaseSeq_nonneg_eq_fract (-d) hd' N,
      ← rustRem_one_eq_fract _ (mul_nonneg (Nat.cast_nonneg _) hd'), ← rustRem_neg_one]
    congr 1
    ring

/-- Claim C5: with constant frequency `f` and no parameter updates,
after `N` calls to `SineDecoder::next` on a fresh decoder the stored
phase equals `(N × f / sample_rate) % 1.0` exactly, over the
exact-arithmetic embedding of the Rust float remainder. -/
theorem phase_after_n_samples (f v dst : ℚ) (N : ℕ) :
    (run (initSys ⟨0, 0, ⟨f, v, dst⟩⟩)
        (List.replicate N SynthEvent.pull)).dec.current_progress =
      rustRem ((N : ℚ) * f / 44100) 1 := by
  obtain ⟨-, -, -, h4⟩ := pulls_progress N (initSys ⟨0, 0, ⟨f, v, dst⟩⟩) rfl
  rw [h4]
  show phaseSeq (f / ((44100 : ℕ) : ℚ)) 0 N = _
  have hsr : ((44100 : ℕ) : ℚ) = 44100 := by norm_num
  rw [hsr, phaseSeq_eq_rustRem]
  congr 1
  ring

/-! ## The first sample of the example scenario (C8) -/

lemma clampR_pos (x : ℝ) (hx : 0 < x) : 0 < clampR x (-1) 1 :=
  lt_min (hx.trans_le (le_max_left _ _)) one_pos

lemma demo_first_sample_eq :
    ((SineDecoder.new demoAudio).next none).2 =
      some (clampR (Real.sin (2 * Real.pi * (440 / 44100 : ℝ)) * ((0 + 1) * 2)) (-1) 1 * 1) := by
  have h0 : ((SineDecoder.new demoAudio).next none).2 =
      some (clampR (Real.sin ((2 * Real.pi) *
          ((rustRem ((0 : ℚ) + 440 / ((44100 : ℕ) : ℚ)) 1 : ℚ) : ℝ)) *
        ((((0 : ℚ) : ℝ) + 1) * 2)) (-1) 1 * (((1 : ℚ) : ℝ))) := rfl
  rw [h0]
  have h1 : rustRem ((0 : ℚ) + 440 / ((44100 : ℕ) : ℚ)) 1 = 440 / 44100 := by
    have hsr : ((44100 : ℕ) : ℚ) = 44100 := by norm_num
    rw [hsr, rustRem, ratTrunc, div_one, if_pos (by norm_num)]
    have hf : ⌊((0 : ℚ) + 440 / 44100)⌋ = 0 := by
      rw [Int.floor_eq_zero_iff, Set.mem_Ico]
      constructor <;> norm_num
    rw [hf]
    norm_num
  rw [h1]
  push_cast
  norm_num

lemma demo_first_sample_pos :
    0 < clampR (Real.sin (2 * Real.pi * (440 / 44100 : ℝ)) * ((0 + 1) * 2)) (-1) 1 * 1 := by
  have harg1 : 0 < 2 * Real.pi * (440 / 44100 : ℝ) := by positivity
  have harg2 : 2 * Real.pi * (440 / 44100 : ℝ) < Real.pi := by
    nlinarith [Real.pi_pos]
  have hsin : 0 < Real.sin (2 * Real.pi * (440 / 44100 : ℝ)) :=
    Real.sin_pos_of_pos_of_lt_pi harg1 harg2
  have hdrive : 0 < Real.sin (2 * Real.pi * (440 / 44100 : ℝ)) * ((0 + 1) * 2) := by
    nlinarith
  have hcl := clampR_pos _ hdrive
  linarith

/-- Claim C8 counterexample: in the example scenario
(frequency 440, volume 1, distortion 0, sample rate 44100), the first
sample returned by a fresh decoder is not 0: the code advances the
phase before computing the sample, so sample 0 is taken at phase
`440/44100`, not at phase 0. -/
theorem first_sample_not_zero :
    ((SineDecoder.new demoAudio).next none).2 ≠ some 0 := by
  rw [demo_first_sample_eq]
  intro h
  injection h with h
  exact (ne_of_gt demo_first_sample_pos) h

/-- Claim C8 (amended): in the example scenario the first sample equals
`clamp(sin(2π · 440/44100) × ((0 + 1) × 2), -1, 1) × 1`, which is
strictly positive — the phase is advanced before the sample is taken,
so sample 0 is not `sin(0) = 0`. -/
theorem first_sample_value :
    ∃ r : ℝ, ((SineDecoder.new demoAudio).next none).2 = some r ∧
      r = clampR (Real.sin (2 * Real.pi * (440 / 44100 : ℝ)) * ((0 + 1) * 2)) (-1) 1 * 1 ∧
      0 < r :=
  ⟨_, demo_first_sample_eq, rfl, demo_first_sample_pos⟩
